import Mathlib

/-!
Verification of the announce-protocol core of `rishflab/libp2p-tests`.

Part 1 embeds `src/announce/handler.rs`: the per-connection protocol
`Handler` with its two FIFO queues (`events`, `dial_queue`) and the
`ProtocolsHandler` methods `inject_fully_negotiated_inbound`,
`inject_fully_negotiated_outbound`, `inject_event`,
`inject_dial_upgrade_error`, `connection_keep_alive` and `poll`.

Part 2 embeds `src/announce.rs`: the `SwapDigest` newtype over a
`Multihash`, its lowercase-hex `Serialize` and its `Deserialize`
(hex decode followed by `Multihash::from_bytes`).

The payload types `OutboundConfig`, `Confirmed`, `ReplySubstream` and the
upgrade-error type live in `protocol.rs` / the libp2p crates and are not
part of the two source files; the handler only moves such values between
queues, so the embedding is generic over them: `O` stands for
`OutboundConfig`, `C` for `Confirmed`, `R` for
`Box<ReplySubstream<NegotiatedSubstream>>` and `E` for
`ProtocolsHandlerUpgrErr<protocol::Error>`.
-/

namespace Announce

/-- `libp2p::swarm::KeepAlive`: keep the connection alive forever (`Yes`),
until a deadline (`Until`, instant modelled as a `Nat`), or not (`No`). -/
inductive KeepAlive where
  | Yes : KeepAlive
  | Until : Nat → KeepAlive
  | No : KeepAlive
deriving DecidableEq

/-- `handler.rs` `enum Error`: the handler's only error is a failed
outbound upgrade, wrapping the transport's upgrade error. -/
inductive HandlerError (E : Type) where
  | Upgrade : E → HandlerError E
deriving DecidableEq

/-- `handler.rs` `enum HandlerEvent`: event produced by the `Handler`. -/
inductive HandlerEvent (C R E : Type) where
  /-- A confirmation was received in response to an announce message. -/
  | ReceivedConfirmation : C → HandlerEvent C R E
  /-- A remote sent a digest; carries the reply substream. -/
  | AwaitingConfirmation : R → HandlerEvent C R E
  /-- Failed to announce swap to peer. -/
  | Error : HandlerError E → HandlerEvent C R E
deriving DecidableEq

/-- `handler.rs` `struct Handler`: pending events to yield, and the queue
of outbound substreams to open.  Both `VecDeque`s are modelled as lists
whose head is the front of the queue. -/
structure Handler (O C R E : Type) where
  /-- Pending events to yield. -/
  events : List (HandlerEvent C R E)
  /-- Queue of outbound substreams to open. -/
  dial_queue : List O
deriving DecidableEq

/-- `impl Default for Handler`: both queues start empty. -/
def Handler.init (O C R E : Type) : Handler O C R E :=
  { events := [], dial_queue := [] }

/-- The relevant arms of `libp2p::swarm::ProtocolsHandlerEvent` as returned
by `Handler::poll`, together with `Poll::Pending`. -/
inductive PollResult (O C R E : Type) where
  /-- `Poll::Pending`: no event available. -/
  | Pending : PollResult O C R E
  /-- `ProtocolsHandlerEvent::Close(err)`: fatal error, close the connection. -/
  | Close : HandlerError E → PollResult O C R E
  /-- `ProtocolsHandlerEvent::Custom(event)`: deliver an event upward. -/
  | Custom : HandlerEvent C R E → PollResult O C R E
  /-- `ProtocolsHandlerEvent::OutboundSubstreamRequest`: ask the transport
  to open an outbound substream under the given upgrade. -/
  | OutboundSubstreamRequest : O → PollResult O C R E
deriving DecidableEq

variable {O C R E : Type}

/-- `Handler::inject_fully_negotiated_inbound`: push an
`AwaitingConfirmation` event carrying the reply substream onto the back of
the events queue. -/
def Handler.inject_fully_negotiated_inbound (h : Handler O C R E) (sender : R) :
    Handler O C R E :=
  { h with events := h.events ++ [HandlerEvent.AwaitingConfirmation sender] }

/-- `Handler::inject_fully_negotiated_outbound`: push a
`ReceivedConfirmation` event onto the back of the events queue. -/
def Handler.inject_fully_negotiated_outbound (h : Handler O C R E) (confirmed : C) :
    Handler O C R E :=
  { h with events := h.events ++ [HandlerEvent.ReceivedConfirmation confirmed] }

/-- `Handler::inject_event`: push the outbound config onto the back of the
dial queue. -/
def Handler.inject_event (h : Handler O C R E) (event : O) : Handler O C R E :=
  { h with dial_queue := h.dial_queue ++ [event] }

/-- `Handler::inject_dial_upgrade_error`: push an `Error(Error::Upgrade(err))`
event onto the back of the events queue. -/
def Handler.inject_dial_upgrade_error (h : Handler O C R E) (err : E) :
    Handler O C R E :=
  { h with events := h.events ++ [HandlerEvent.Error (HandlerError.Upgrade err)] }

/-- `Handler::connection_keep_alive`: always `KeepAlive::Yes`. -/
def Handler.connection_keep_alive (_h : Handler O C R E) : KeepAlive :=
  KeepAlive.Yes

/-- `Handler::poll`: pop the front pending event first (an `Error` event
becomes `Close`, any other event becomes `Custom`); otherwise pop the
front of the dial queue as an `OutboundSubstreamRequest`; otherwise
`Pending`.  Returns the result together with the updated handler. -/
def Handler.poll (h : Handler O C R E) :
    PollResult O C R E × Handler O C R E :=
  match h.events with
  | event :: rest =>
    match event with
    | HandlerEvent.Error err => (PollResult.Close err, { h with events := rest })
    | e => (PollResult.Custom e, { h with events := rest })
  | [] =>
    match h.dial_queue with
    | upgrade :: rest =>
      (PollResult.OutboundSubstreamRequest upgrade, { h with dial_queue := rest })
    | [] => (PollResult.Pending, h)

/-!
Traces of handler operations.  A `Handler` is driven by the swarm through
an arbitrary interleaving of `inject_event` (submissions),
`inject_fully_negotiated_inbound` / `inject_fully_negotiated_outbound` /
`inject_dial_upgrade_error` (transport completion callbacks) and `poll`.
-/

/-- One externally driven operation on a `Handler`. -/
inductive Op (O C R E : Type) where
  /-- `inject_event`: the orchestrator submits an outbound request. -/
  | submit : O → Op O C R E
  /-- `inject_fully_negotiated_inbound`: inbound negotiation completed. -/
  | inbound : R → Op O C R E
  /-- `inject_fully_negotiated_outbound`: outbound negotiation completed. -/
  | outbound : C → Op O C R E
  /-- `inject_dial_upgrade_error`: the transport reports an upgrade error. -/
  | dialError : E → Op O C R E
  /-- One `poll` call. -/
  | poll : Op O C R E
deriving DecidableEq

/-- Run a trace of operations from a handler state, returning the final
state and the list of `poll` results in order. -/
def run : List (Op O C R E) → Handler O C R E → Handler O C R E × List (PollResult O C R E)
  | [], h => (h, [])
  | Op.submit o :: ops, h => run ops (h.inject_event o)
  | Op.inbound r :: ops, h => run ops (h.inject_fully_negotiated_inbound r)
  | Op.outbound c :: ops, h => run ops (h.inject_fully_negotiated_outbound c)
  | Op.dialError e :: ops, h => run ops (h.inject_dial_upgrade_error e)
  | Op.poll :: ops, h =>
    let stepped := h.poll
    let rest := run ops stepped.2
    (rest.1, stepped.1 :: rest.2)

/-- The event, if any, that an operation pushes onto the events queue. -/
def Op.pushedEvent : Op O C R E → Option (HandlerEvent C R E)
  | Op.inbound r => some (HandlerEvent.AwaitingConfirmation r)
  | Op.outbound c => some (HandlerEvent.ReceivedConfirmation c)
  | Op.dialError e => some (HandlerEvent.Error (HandlerError.Upgrade e))
  | _ => none

/-- The events a trace pushes onto the events queue, in order. -/
def pushedEvents (ops : List (Op O C R E)) : List (HandlerEvent C R E) :=
  ops.filterMap Op.pushedEvent

/-- The event, if any, that a poll result delivers (a `Custom` event, or
the error carried by a `Close`). -/
def PollResult.poppedEvent : PollResult O C R E → Option (HandlerEvent C R E)
  | PollResult.Custom e => some e
  | PollResult.Close err => some (HandlerEvent.Error err)
  | _ => none

/-- The events a list of poll results delivers, in order. -/
def poppedEvents (outs : List (PollResult O C R E)) : List (HandlerEvent C R E) :=
  outs.filterMap PollResult.poppedEvent

/-- The reply substreams delivered by `AwaitingConfirmation` events among
a list of poll results, in order. -/
def awaitingOutputs (outs : List (PollResult O C R E)) : List R :=
  outs.filterMap fun r =>
    match r with
    | PollResult.Custom (HandlerEvent.AwaitingConfirmation s) => some s
    | _ => none

/-- The confirmations delivered by `ReceivedConfirmation` events among a
list of poll results, in order. -/
def receivedOutputs (outs : List (PollResult O C R E)) : List C :=
  outs.filterMap fun r =>
    match r with
    | PollResult.Custom (HandlerEvent.ReceivedConfirmation c) => some c
    | _ => none

/-- The reply substreams of the `inject_fully_negotiated_inbound` calls of
a trace, in order. -/
def inboundCalls (ops : List (Op O C R E)) : List R :=
  ops.filterMap fun op =>
    match op with
    | Op.inbound r => some r
    | _ => none

/-- The confirmations of the `inject_fully_negotiated_outbound` calls of a
trace, in order. -/
def outboundCalls (ops : List (Op O C R E)) : List C :=
  ops.filterMap fun op =>
    match op with
    | Op.outbound c => some c
    | _ => none

/-- Extract the payload of an `AwaitingConfirmation` event. -/
def evAwaiting : HandlerEvent C R E → Option R
  | HandlerEvent.AwaitingConfirmation s => some s
  | _ => none

/-- Extract the payload of a `ReceivedConfirmation` event. -/
def evReceived : HandlerEvent C R E → Option C
  | HandlerEvent.ReceivedConfirmation c => some c
  | _ => none

/-- Whether an operation is a successful substream-completion callback. -/
def Op.isCompletion : Op O C R E → Bool
  | Op.inbound _ => true
  | Op.outbound _ => true
  | _ => false

/-- A trace in which no inbound or outbound completion callback occurs
after any dial-upgrade-error callback. -/
def noCompletionAfterError : List (Op O C R E) → Bool
  | [] => true
  | Op.dialError _ :: rest =>
    rest.all (fun op => !op.isCompletion) && noCompletionAfterError rest
  | _ :: rest => noCompletionAfterError rest

/-- An event list in which every event after an `Error` event is itself an
`Error` event. -/
def errTail : List (HandlerEvent C R E) → Prop
  | [] => True
  | HandlerEvent.Error _ :: rest => ∀ x ∈ rest, ∃ e', x = HandlerEvent.Error e'
  | _ :: rest => errTail rest

/-!
Part 2: `src/announce.rs`.  Bytes are modelled as naturals below 256.
`hex::encode` produces two lowercase hex digits per byte and
`hex::decode` accepts upper- and lowercase digits, failing on any other
character or on odd length.  `Multihash::from_bytes` (multihash crate)
decodes an unsigned LEB128 varint hash code and an unsigned LEB128
varint digest size, requires the remaining bytes to number exactly that
size, and keeps the whole raw byte vector; varint values are modelled as
unbounded naturals.
-/

/-- The value of a hex digit character, if any (`0`-`9`, `a`-`f`, `A`-`F`). -/
def hexVal (c : Char) : Option Nat :=
  if 48 ≤ c.toNat ∧ c.toNat ≤ 57 then some (c.toNat - 48)
  else if 97 ≤ c.toNat ∧ c.toNat ≤ 102 then some (c.toNat - 87)
  else if 65 ≤ c.toNat ∧ c.toNat ≤ 70 then some (c.toNat - 55)
  else none

/-- The lowercase hex digit character for a value below 16. -/
def hexDigit (n : Nat) : Char :=
  if n < 10 then Char.ofNat (48 + n) else Char.ofNat (87 + n)

/-- `hex::encode`: two lowercase hex digits per byte, high nibble first. -/
def hexEncode : List Nat → List Char
  | [] => []
  | b :: rest => hexDigit (b / 16) :: hexDigit (b % 16) :: hexEncode rest

/-- `hex::decode`: parse pairs of hex digits into bytes; fails on a
non-digit character or odd length. -/
def hexDecode : List Char → Option (List Nat)
  | [] => some []
  | [_] => none
  | c1 :: c2 :: rest =>
    match hexVal c1, hexVal c2 with
    | some hi, some lo => (hexDecode rest).map fun t => (16 * hi + lo) :: t
    | _, _ => none

/-- Unsigned LEB128 varint decoding as in the `unsigned-varint` crate:
low seven bits per byte, least significant group first, high bit set on
continuation bytes; returns the value and the remaining input, failing
on truncated input. -/
def uvarintDecode : List Nat → Option (Nat × List Nat)
  | [] => none
  | b :: rest =>
    if b < 128 then some (b, rest)
    else
      match uvarintDecode rest with
      | some (n, r) => some ((b % 128) + 128 * n, r)
      | none => none

/-- `multihash::Multihash`: stores the raw multihash bytes. -/
structure Multihash where
  bytes : List Nat
deriving DecidableEq

/-- `Multihash::as_bytes`: the raw multihash bytes. -/
def Multihash.as_bytes (m : Multihash) : List Nat :=
  m.bytes

/-- `Multihash::from_bytes`: decode a varint code and a varint size,
require the remaining bytes to number exactly `size`, and keep the whole
input as the multihash bytes; any failure rejects the input. -/
def Multihash.fromBytes (l : List Nat) : Option Multihash :=
  match uvarintDecode l with
  | none => none
  | some (_code, r1) =>
    match uvarintDecode r1 with
    | none => none
    | some (size, digest) =>
      if digest.length = size then some { bytes := l } else none

/-- `struct SwapDigest(Multihash)`. -/
structure SwapDigest where
  multihash : Multihash
deriving DecidableEq

/-- `SwapDigest::new`. -/
def SwapDigest.new (m : Multihash) : SwapDigest :=
  { multihash := m }

/-- Construction of a `SwapDigest` from raw hash bytes:
`Multihash::from_bytes` followed by `SwapDigest::new`, the only route in
the source from raw bytes to a digest (it is the one `Deserialize`
takes). -/
def swapDigestFromBytes (l : List Nat) : Option SwapDigest :=
  (Multihash.fromBytes l).map SwapDigest.new

/-- `impl Serialize for SwapDigest`: lowercase hex of the multihash
bytes. -/
def SwapDigest.serializeHex (d : SwapDigest) : List Char :=
  hexEncode d.multihash.as_bytes

/-- `impl Deserialize for SwapDigest`: hex decode, then
`Multihash::from_bytes`, then `SwapDigest::new`; any failure is a
deserialization error. -/
def SwapDigest.deserializeHex (s : List Char) : Option SwapDigest :=
  match hexDecode s with
  | none => none
  | some bytes =>
    match Multihash.fromBytes bytes with
    | none => none
    | some m => some (SwapDigest.new m)

/-- Declarative LEB128: `IsUvarint l n` holds when the byte list `l` is
an unsigned LEB128 encoding of `n` (final byte below 128, continuation
bytes between 128 and 255). -/
inductive IsUvarint : List Nat → Nat → Prop where
  | last : ∀ b, b < 128 → IsUvarint [b] b
  | cont : ∀ b l n, 128 ≤ b → b < 256 → IsUvarint l n →
      IsUvarint (b :: l) ((b % 128) + 128 * n)

/-- Valid hash framing: a varint hash code, then a varint digest size,
then exactly `size` digest bytes. -/
def HashFraming (bytes : List Nat) : Prop :=
  ∃ p q digest code size, bytes = p ++ q ++ digest ∧
    IsUvarint p code ∧ IsUvarint q size ∧ digest.length = size

/-- C1: `poll` never returns an outbound-substream-request while the
pending-events queue is non-empty: an `OutboundSubstreamRequest` is
returned only when `events` is empty (and it pops the front pending
dial); when `events` is non-empty `poll` pops and returns its front
event (as `Close` if it is an `Error`, as `Custom` otherwise); and
`poll` returns `Pending` exactly when both queues are empty. -/
theorem poll_event_queue_priority (h : Handler O C R E) :
    (∀ cfg h', h.poll = (PollResult.OutboundSubstreamRequest cfg, h') →
      h.events = [] ∧ h.dial_queue = cfg :: h'.dial_queue) ∧
    (∀ e rest, h.events = e :: rest →
      h.poll.2.events = rest ∧
        ((∃ err, e = HandlerEvent.Error err ∧ h.poll.1 = PollResult.Close err) ∨
          h.poll.1 = PollResult.Custom e)) ∧
    (h.poll.1 = PollResult.Pending ↔ h.events = [] ∧ h.dial_queue = []) := by
  obtain ⟨events, dials⟩ := h
  refine ⟨?_, ?_, ?_⟩
  · intro cfg h' hp
    cases events with
    | nil =>
      cases dials with
      | nil => simp [Handler.poll] at hp
      | cons d ds =>
        simp only [Handler.poll] at hp
        obtain ⟨hc, hh⟩ := Prod.mk.injEq .. ▸ hp
        cases hc
        exact ⟨rfl, by simp [← hh]⟩
    | cons e rest => cases e <;> simp [Handler.poll] at hp
  · intro e rest hrest
    cases hrest
    cases e <;> simp [Handler.poll]
  · cases events with
    | nil =>
      cases dials with
      | nil => simp [Handler.poll]
      | cons d ds => simp [Handler.poll]
    | cons e rest =>
      cases e <;> simp [Handler.poll]

/-- Witness for C1 at a concrete handler: with both queues empty, `poll`
returns `Pending`. -/
theorem poll_event_queue_priority_witness :
    (Handler.mk ([] : List (HandlerEvent Nat Nat Nat)) ([] : List Nat)).poll.1
      = PollResult.Pending :=
  (poll_event_queue_priority (Handler.mk [] [])).2.2.mpr ⟨rfl, rfl⟩

/-- C4: the keep-alive signal is always `KeepAlive::Yes`, regardless of
the handler's queue state. -/
theorem keep_alive_always_yes (h : Handler O C R E) :
    h.connection_keep_alive = KeepAlive.Yes :=
  rfl

/-- C5: `inject_dial_upgrade_error` appends an `Error(Upgrade err)` event
to the back of the events queue (leaving the dial queue unchanged), and
when `poll` pops that event from the front it returns the `Close`
outcome carrying it, not a `Custom` event. -/
theorem dial_upgrade_error_appends_fatal (h : Handler O C R E) (err : E) :
    (h.inject_dial_upgrade_error err).events
        = h.events ++ [HandlerEvent.Error (HandlerError.Upgrade err)] ∧
    (h.inject_dial_upgrade_error err).dial_queue = h.dial_queue ∧
    ∀ rest, h.events = HandlerEvent.Error (HandlerError.Upgrade err) :: rest →
      h.poll = (PollResult.Close (HandlerError.Upgrade err),
        { h with events := rest }) := by
  refine ⟨rfl, rfl, ?_⟩
  intro rest hrest
  obtain ⟨events, dials⟩ := h
  cases hrest
  simp [Handler.poll]

/-- Witness for C5 at a concrete handler: popping a front upgrade-error
event yields the `Close` outcome. -/
theorem dial_upgrade_error_appends_fatal_witness :
    (Handler.mk [HandlerEvent.Error (HandlerError.Upgrade 3)] ([] : List Nat)
        : Handler Nat Nat Nat Nat).poll
      = (PollResult.Close (HandlerError.Upgrade 3), Handler.mk [] []) :=
  (dial_upgrade_error_appends_fatal
    (Handler.mk [HandlerEvent.Error (HandlerError.Upgrade 3)] []) 3).2.2 [] rfl

/-- C6: on a fresh handler, submitting `d1` then `d2` with no transport
activity makes two consecutive `poll` calls return outbound-substream
requests for `d1` then `d2`, in that order. -/
theorem submissions_fifo (d1 d2 : O) :
    (((Handler.init O C R E).inject_event d1).inject_event d2).poll.1
        = PollResult.OutboundSubstreamRequest d1 ∧
    ((((Handler.init O C R E).inject_event d1).inject_event d2).poll.2).poll.1
        = PollResult.OutboundSubstreamRequest d2 :=
  ⟨rfl, rfl⟩

/-- C10: `inject_event` appends exactly the submitted request to the back
of the dial queue and leaves the events queue unchanged. -/
theorem inject_event_frame (h : Handler O C R E) (ev : O) :
    (h.inject_event ev).dial_queue = h.dial_queue ++ [ev] ∧
    (h.inject_event ev).events = h.events :=
  ⟨rfl, rfl⟩

/-- Lemma: one `poll` moves the front event (if any) from the queue into
the delivered event of its result. -/
theorem poll_poppedEvent_spec (h : Handler O C R E) :
    h.poll.1.poppedEvent.toList ++ h.poll.2.events = h.events := by
  obtain ⟨events, dials⟩ := h
  cases events with
  | nil =>
    cases dials with
    | nil => simp [Handler.poll, PollResult.poppedEvent]
    | cons d ds => simp [Handler.poll, PollResult.poppedEvent]
  | cons e rest => cases e <;> simp [Handler.poll, PollResult.poppedEvent]

/-- Lemma: `poppedEvents` on a cons. -/
theorem poppedEvents_cons (r : PollResult O C R E) (outs : List (PollResult O C R E)) :
    poppedEvents (r :: outs) = r.poppedEvent.toList ++ poppedEvents outs := by
  cases r <;> simp [poppedEvents, PollResult.poppedEvent, List.filterMap_cons]

/-- Invariant: over any trace, the events delivered by `poll` followed by
the events still queued equal the initially queued events followed by the
events the trace pushed, in order. -/
theorem run_events_invariant (ops : List (Op O C R E)) (h : Handler O C R E) :
    poppedEvents (run ops h).2 ++ (run ops h).1.events
      = h.events ++ pushedEvents ops := by
  induction ops generalizing h with
  | nil => simp [run, poppedEvents, pushedEvents]
  | cons op ops ih =>
    cases op with
    | submit o =>
      rw [run, ih]
      simp [Handler.inject_event, pushedEvents, List.filterMap_cons, Op.pushedEvent]
    | inbound r =>
      rw [run, ih]
      simp [Handler.inject_fully_negotiated_inbound, pushedEvents,
        List.filterMap_cons, Op.pushedEvent]
    | outbound c =>
      rw [run, ih]
      simp [Handler.inject_fully_negotiated_outbound, pushedEvents,
        List.filterMap_cons, Op.pushedEvent]
    | dialError e =>
      rw [run, ih]
      simp [Handler.inject_dial_upgrade_error, pushedEvents,
        List.filterMap_cons, Op.pushedEvent]
    | poll =>
      rw [run]
      simp only [poppedEvents_cons, List.append_assoc, ih]
      rw [← List.append_assoc, poll_poppedEvent_spec]
      simp [pushedEvents, List.filterMap_cons, Op.pushedEvent]

/-- Lemma: the awaiting outputs of a result list are the awaiting payloads
of the events it delivers. -/
theorem awaitingOutputs_eq (outs : List (PollResult O C R E)) :
    awaitingOutputs outs = (poppedEvents outs).filterMap evAwaiting := by
  induction outs with
  | nil => rfl
  | cons r rest ih =>
    cases r with
    | Custom e =>
      cases e <;>
        simp [awaitingOutputs, poppedEvents, List.filterMap_cons,
          PollResult.poppedEvent, evAwaiting] <;> exact ih
    | Close err =>
      simp only [awaitingOutputs, poppedEvents, List.filterMap_cons,
        PollResult.poppedEvent, evAwaiting]
      exact ih
    | Pending =>
      simp only [awaitingOutputs, poppedEvents, List.filterMap_cons,
        PollResult.poppedEvent, evAwaiting]
      exact ih
    | OutboundSubstreamRequest o =>
      simp only [awaitingOutputs, poppedEvents, List.filterMap_cons,
        PollResult.poppedEvent, evAwaiting]
      exact ih

/-- Lemma: the received outputs of a result list are the confirmation
payloads of the events it delivers. -/
theorem receivedOutputs_eq (outs : List (PollResult O C R E)) :
    receivedOutputs outs = (poppedEvents outs).filterMap evReceived := by
  induction outs with
  | nil => rfl
  | cons r rest ih =>
    cases r with
    | Custom e =>
      cases e <;>
        simp [receivedOutputs, poppedEvents, List.filterMap_cons,
          PollResult.poppedEvent, evReceived] <;> exact ih
    | Close err =>
      simp only [receivedOutputs, poppedEvents, List.filterMap_cons,
        PollResult.poppedEvent, evReceived]
      exact ih
    | Pending =>
      simp only [receivedOutputs, poppedEvents, List.filterMap_cons,
        PollResult.poppedEvent, evReceived]
      exact ih
    | OutboundSubstreamRequest o =>
      simp only [receivedOutputs, poppedEvents, List.filterMap_cons,
        PollResult.poppedEvent, evReceived]
      exact ih

/-- Lemma: the inbound callbacks of a trace are the awaiting payloads of
the events it pushes. -/
theorem inboundCalls_eq (ops : List (Op O C R E)) :
    inboundCalls ops = (pushedEvents ops).filterMap evAwaiting := by
  induction ops with
  | nil => rfl
  | cons op rest ih =>
    cases op <;>
      simp [inboundCalls, pushedEvents, List.filterMap_cons, Op.pushedEvent,
        evAwaiting] <;> exact ih

/-- Lemma: the outbound callbacks of a trace are the confirmation payloads
of the events it pushes. -/
theorem outboundCalls_eq (ops : List (Op O C R E)) :
    outboundCalls ops = (pushedEvents ops).filterMap evReceived := by
  induction ops with
  | nil => rfl
  | cons op rest ih =>
    cases op <;>
      simp [outboundCalls, pushedEvents, List.filterMap_cons, Op.pushedEvent,
        evReceived] <;> exact ih

/-- C2: over any trace from a fresh handler whose final events queue is
drained, each completed inbound substream yields exactly one
`AwaitingConfirmation` event from `poll` and each completed outbound
substream exactly one `ReceivedConfirmation` event — the delivered
payload sequences equal the injected ones, in order, so never zero and
never more than one per completion. -/
theorem substream_events_exactly_once (ops : List (Op O C R E))
    (hdrained : (run ops (Handler.init O C R E)).1.events = []) :
    awaitingOutputs (run ops (Handler.init O C R E)).2 = inboundCalls ops ∧
    receivedOutputs (run ops (Handler.init O C R E)).2 = outboundCalls ops := by
  have hinv := run_events_invariant ops (Handler.init O C R E)
  rw [hdrained, List.append_nil] at hinv
  have hpop : poppedEvents (run ops (Handler.init O C R E)).2 = pushedEvents ops := by
    simpa [Handler.init] using hinv
  constructor
  · rw [awaitingOutputs_eq, hpop, inboundCalls_eq]
  · rw [receivedOutputs_eq, hpop, outboundCalls_eq]

/-- Witness for C2: a concrete trace with one inbound and one outbound
completion, polled to exhaustion, delivers each exactly once. -/
theorem substream_events_exactly_once_witness :
    awaitingOutputs (run [Op.inbound 1, Op.outbound 2, Op.poll, Op.poll]
        (Handler.init Nat Nat Nat Nat)).2 = [1] ∧
    receivedOutputs (run [Op.inbound 1, Op.outbound 2, Op.poll, Op.poll]
        (Handler.init Nat Nat Nat Nat)).2 = [2] :=
  substream_events_exactly_once
    [Op.inbound 1, Op.outbound 2, Op.poll, Op.poll] rfl

/-- Lemma: a trace of non-completion operations pushes only `Error`
events. -/
theorem pushed_all_errors (ops : List (Op O C R E))
    (hall : ∀ op ∈ ops, op.isCompletion = false) :
    ∀ x ∈ pushedEvents ops, ∃ e', x = HandlerEvent.Error e' := by
  induction ops with
  | nil => simp [pushedEvents]
  | cons op rest ih =>
    intro x hx
    have hop := hall op (List.mem_cons_self _ _)
    have hrest : ∀ o ∈ rest, Op.isCompletion o = false :=
      fun o ho => hall o (List.mem_cons_of_mem _ ho)
    cases op with
    | submit o =>
      exact ih hrest x
        (by simpa [pushedEvents, List.filterMap_cons, Op.pushedEvent] using hx)
    | inbound r => simp [Op.isCompletion] at hop
    | outbound c => simp [Op.isCompletion] at hop
    | dialError e =>
      rcases (by simpa [pushedEvents, List.filterMap_cons, Op.pushedEvent] using hx :
          x = HandlerEvent.Error (HandlerError.Upgrade e) ∨ x ∈ pushedEvents rest)
        with h | h
      · exact ⟨_, h⟩
      · exact ih hrest x h
    | poll =>
      exact ih hrest x
        (by simpa [pushedEvents, List.filterMap_cons, Op.pushedEvent] using hx)

/-- Lemma: a trace with no completion callback after any upgrade error
pushes an event sequence in which every event after an `Error` is itself
an `Error`. -/
theorem errTail_pushed (ops : List (Op O C R E))
    (hnc : noCompletionAfterError ops = true) :
    errTail (pushedEvents ops) := by
  induction ops with
  | nil => trivial
  | cons op rest ih =>
    cases op with
    | submit o =>
      have h' := ih (by simpa [noCompletionAfterError] using hnc)
      simpa [pushedEvents, List.filterMap_cons, Op.pushedEvent] using h'
    | inbound r =>
      have h' := ih (by simpa [noCompletionAfterError] using hnc)
      simpa [pushedEvents, List.filterMap_cons, Op.pushedEvent, errTail] using h'
    | outbound c =>
      have h' := ih (by simpa [noCompletionAfterError] using hnc)
      simpa [pushedEvents, List.filterMap_cons, Op.pushedEvent, errTail] using h'
    | dialError e =>
      simp only [noCompletionAfterError, Bool.and_eq_true, List.all_eq_true] at hnc
      obtain ⟨hall, _⟩ := hnc
      have hall' : ∀ op ∈ rest, Op.isCompletion op = false := by
        intro op hop
        simpa using hall op hop
      simp only [pushedEvents, List.filterMap_cons, Op.pushedEvent, errTail]
      exact fun x hx => pushed_all_errors rest hall' x hx
    | poll =>
      have h' := ih (by simpa [noCompletionAfterError] using hnc)
      simpa [pushedEvents, List.filterMap_cons, Op.pushedEvent] using h'

/-- Lemma: the error-tail property restricts to the left part of an
append. -/
theorem errTail_append_left (p t : List (HandlerEvent C R E))
    (h : errTail (p ++ t)) : errTail p := by
  induction p with
  | nil => trivial
  | cons a rest ih =>
    cases a with
    | Error err =>
      simp only [List.cons_append, errTail] at h ⊢
      exact fun x hx => h x (List.mem_append_left _ hx)
    | ReceivedConfirmation c =>
      simp only [List.cons_append, errTail] at h ⊢
      exact ih h
    | AwaitingConfirmation r =>
      simp only [List.cons_append, errTail] at h ⊢
      exact ih h

/-- Lemma: in an error-tail list, everything after an `Error` occurrence
is an `Error`. -/
theorem errTail_mid (l1 l2 : List (HandlerEvent C R E)) (e : HandlerError E)
    (h : errTail (l1 ++ HandlerEvent.Error e :: l2)) :
    ∀ x ∈ l2, ∃ e', x = HandlerEvent.Error e' := by
  induction l1 with
  | nil =>
    simp only [List.nil_append, errTail] at h
    exact h
  | cons a l1' ih =>
    cases a with
    | Error err =>
      simp only [List.cons_append, errTail] at h
      exact fun x hx =>
        h x (List.mem_append_right _ (List.mem_cons_of_mem _ hx))
    | ReceivedConfirmation c =>
      simp only [List.cons_append, errTail] at h
      exact ih h
    | AwaitingConfirmation r =>
      simp only [List.cons_append, errTail] at h
      exact ih h

/-- Lemma: `poll` never wraps an `Error` event in a `Custom` result. -/
theorem poll_custom_ne_error (h : Handler O C R E) (err : HandlerError E) :
    h.poll.1 ≠ PollResult.Custom (HandlerEvent.Error err) := by
  obtain ⟨events, dials⟩ := h
  cases events with
  | nil =>
    cases dials with
    | nil => simp [Handler.poll]
    | cons d ds => simp [Handler.poll]
  | cons e rest => cases e <;> simp [Handler.poll]

/-- Lemma: no poll result of any trace is a `Custom` wrapping an `Error`
event. -/
theorem run_custom_not_error (ops : List (Op O C R E)) (h : Handler O C R E)
    (err : HandlerError E) :
    PollResult.Custom (HandlerEvent.Error err) ∉ (run ops h).2 := by
  induction ops generalizing h with
  | nil => simp [run]
  | cons op rest ih =>
    cases op with
    | submit o => simpa [run] using ih (h.inject_event o)
    | inbound r => simpa [run] using ih (h.inject_fully_negotiated_inbound r)
    | outbound c => simpa [run] using ih (h.inject_fully_negotiated_outbound c)
    | dialError e => simpa [run] using ih (h.inject_dial_upgrade_error e)
    | poll =>
      simp only [run, List.mem_cons]
      rintro (hc | hc)
      · exact poll_custom_ne_error h err hc.symm
      · exact ih h.poll.2 hc

/-- C3 counterexample: a completion callback injected after an upgrade
error (but before the error is dequeued) is still delivered by a `poll`
call that follows the one returning the Fatal-Error `Close` outcome. -/
theorem fatal_termination_counterexample :
    (run [Op.dialError 0, Op.outbound 5, Op.poll, Op.poll]
        (Handler.init Nat Nat Nat Nat)).2
      = [PollResult.Close (HandlerError.Upgrade 0),
         PollResult.Custom (HandlerEvent.ReceivedConfirmation 5)] :=
  rfl

/-- C3 amended: for any trace from a fresh handler in which no inbound or
outbound completion callback is injected after any dial-upgrade-error
callback, once a `poll` call has returned the Fatal-Error (`Close`)
outcome, no subsequent `poll` call returns a `Custom` event — in
particular no `ReceivedConfirmation` or `AwaitingConfirmation`. -/
theorem fatal_termination_amended (ops : List (Op O C R E))
    (hnc : noCompletionAfterError ops = true)
    (pre post : List (PollResult O C R E)) (err : HandlerError E)
    (hsplit : (run ops (Handler.init O C R E)).2
      = pre ++ PollResult.Close err :: post)
    (e : HandlerEvent C R E) :
    PollResult.Custom e ∉ post := by
  intro hmem
  obtain ⟨mid, tail, hpost⟩ := List.append_of_mem hmem
  have hpt : errTail (poppedEvents (run ops (Handler.init O C R E)).2
      ++ (run ops (Handler.init O C R E)).1.events) := by
    rw [run_events_invariant ops (Handler.init O C R E)]
    simpa [Handler.init] using errTail_pushed ops hnc
  have hpoppedTail := errTail_append_left _ _ hpt
  have hdecomp : poppedEvents (run ops (Handler.init O C R E)).2
      = poppedEvents pre ++ HandlerEvent.Error err
          :: (poppedEvents mid ++ e :: poppedEvents tail) := by
    rw [hsplit, hpost]
    simp [poppedEvents, List.filterMap_append, List.filterMap_cons,
      PollResult.poppedEvent]
  rw [hdecomp] at hpoppedTail
  obtain ⟨e', he'⟩ := errTail_mid _ _ _ hpoppedTail e
    (List.mem_append_right _ (List.mem_cons_self _ _))
  have hcmem : PollResult.Custom e ∈ (run ops (Handler.init O C R E)).2 := by
    rw [hsplit]
    exact List.mem_append_right _ (List.mem_cons_of_mem _ hmem)
  rw [he'] at hcmem
  exact run_custom_not_error ops _ e' hcmem

/-- Witness for the amended C3 at a concrete trace: after the `Close` of a
lone upgrade error, the remaining poll result is only `Pending`. -/
theorem fatal_termination_amended_witness :
    (PollResult.Custom (HandlerEvent.ReceivedConfirmation 9)
        : PollResult Nat Nat Nat Nat) ∉ [PollResult.Pending] :=
  fatal_termination_amended [Op.dialError 0, Op.poll, Op.poll] rfl
    [] [PollResult.Pending] (HandlerError.Upgrade 0) rfl
    (HandlerEvent.ReceivedConfirmation 9)

/-- Lemma: `hexVal` inverts `hexDigit` on values below 16. -/
theorem hexVal_hexDigit (n : Nat) (h : n < 16) :
    hexVal (hexDigit n) = some n := by
  interval_cases n <;> rfl

/-- Lemma: `hexDecode` inverts `hexEncode` on byte lists. -/
theorem hexDecode_hexEncode (l : List Nat) (hb : ∀ b ∈ l, b < 256) :
    hexDecode (hexEncode l) = some l := by
  induction l with
  | nil => rfl
  | cons b rest ih =>
    have hblt : b < 256 := hb b (List.mem_cons_self _ _)
    have h1 : hexVal (hexDigit (b / 16)) = some (b / 16) :=
      hexVal_hexDigit _ (by omega)
    have h2 : hexVal (hexDigit (b % 16)) = some (b % 16) :=
      hexVal_hexDigit _ (by omega)
    have ih' := ih fun x hx => hb x (List.mem_cons_of_mem _ hx)
    simp only [hexEncode, hexDecode, h1, h2, ih', Option.map_some']
    have : 16 * (b / 16) + b % 16 = b := by omega
    rw [this]

/-- Lemma: a hex digit's value is below 16. -/
theorem hexVal_lt (c : Char) (v : Nat) (h : hexVal c = some v) : v < 16 := by
  unfold hexVal at h
  split at h
  · rw [Option.some.injEq] at h; omega
  · split at h
    · rw [Option.some.injEq] at h; omega
    · split at h
      · rw [Option.some.injEq] at h; omega
      · exact absurd h (by simp)

/-- Lemma: `hexDecode` only produces bytes below 256. -/
theorem hexDecode_lt :
    ∀ (s : List Char) (bytes : List Nat), hexDecode s = some bytes →
      ∀ x ∈ bytes, x < 256
  | [], bytes, h => by
    rw [show hexDecode [] = some [] from rfl, Option.some.injEq] at h
    subst h
    simp
  | [c], bytes, h => by
    exact absurd h (by simp [hexDecode])
  | c1 :: c2 :: rest, bytes, h => by
    rw [show hexDecode (c1 :: c2 :: rest)
        = match hexVal c1, hexVal c2 with
          | some hi, some lo =>
            (hexDecode rest).map fun t => (16 * hi + lo) :: t
          | _, _ => none from rfl] at h
    cases h1 : hexVal c1 with
    | none => rw [h1] at h; exact absurd h (by simp)
    | some hi =>
      cases h2 : hexVal c2 with
      | none => rw [h1, h2] at h; exact absurd h (by simp)
      | some lo =>
        rw [h1, h2] at h
        dsimp only at h
        cases h3 : hexDecode rest with
        | none => rw [h3] at h; exact absurd h (by simp)
        | some t =>
          rw [h3, Option.map_some', Option.some.injEq] at h
          subst h
          intro x hx
          rcases List.mem_cons.mp hx with rfl | hx
          · have := hexVal_lt c1 hi h1
            have := hexVal_lt c2 lo h2
            omega
          · exact hexDecode_lt rest t h3 x hx

/-- Lemma: decoding a LEB128 encoding followed by anything yields the
encoded value and the rest. -/
theorem uvarintDecode_append (p : List Nat) (n : Nat) (hp : IsUvarint p n)
    (rest : List Nat) : uvarintDecode (p ++ rest) = some (n, rest) := by
  induction hp with
  | last b hb =>
    simp only [List.cons_append, List.nil_append, uvarintDecode]
    rw [if_pos hb]
    rfl
  | cont b l m hb1 hb2 hl ih =>
    simp only [List.cons_append, uvarintDecode, List.append_eq]
    rw [if_neg (by omega), ih]

/-- Lemma: a successful LEB128 decode over genuine bytes consumes a
declaratively valid varint encoding. -/
theorem isUvarint_of_decode :
    ∀ (l : List Nat), (∀ b ∈ l, b < 256) →
      ∀ (n : Nat) (r : List Nat), uvarintDecode l = some (n, r) →
        ∃ p, l = p ++ r ∧ IsUvarint p n
  | [], _, n, r, h => by exact absurd h (by simp [uvarintDecode])
  | b :: rest, hb, n, r, h => by
    rw [show uvarintDecode (b :: rest)
        = if b < 128 then some (b, rest)
          else
            match uvarintDecode rest with
            | some (n, r) => some ((b % 128) + 128 * n, r)
            | none => none from rfl] at h
    by_cases hlt : b < 128
    · rw [if_pos hlt, Option.some.injEq] at h
      obtain ⟨rfl, rfl⟩ := Prod.mk.injEq .. ▸ h
      exact ⟨[b], rfl, IsUvarint.last b hlt⟩
    · rw [if_neg hlt] at h
      cases h1 : uvarintDecode rest with
      | none => rw [h1] at h; exact absurd h (by simp)
      | some v =>
        obtain ⟨m, r'⟩ := v
        rw [h1, Option.some.injEq] at h
        obtain ⟨rfl, rfl⟩ := Prod.mk.injEq .. ▸ h
        obtain ⟨p, rfl, hp⟩ := isUvarint_of_decode rest
          (fun x hx => hb x (List.mem_cons_of_mem _ hx)) m r' h1
        exact ⟨b :: p, rfl,
          IsUvarint.cont b p m (by omega) (hb b (List.mem_cons_self _ _)) hp⟩

/-- Lemma: `Multihash::from_bytes` keeps the raw input bytes. -/
theorem fromBytes_bytes (l : List Nat) (m : Multihash)
    (h : Multihash.fromBytes l = some m) : m = { bytes := l } := by
  unfold Multihash.fromBytes at h
  split at h
  · exact absurd h (by simp)
  · split at h
    · exact absurd h (by simp)
    · split at h
      · exact (Option.some.inj h).symm
      · exact absurd h (by simp)

/-- Lemma: over genuine bytes, `Multihash::from_bytes` succeeds exactly
on byte lists with valid hash framing. -/
theorem hashFraming_iff (l : List Nat) (hb : ∀ x ∈ l, x < 256) :
    HashFraming l ↔ (Multihash.fromBytes l).isSome := by
  constructor
  · rintro ⟨p, q, digest, code, size, rfl, hp, hq, hlen⟩
    have e1 : uvarintDecode (p ++ (q ++ digest)) = some (code, q ++ digest) :=
      uvarintDecode_append p code hp _
    have e2 : uvarintDecode (q ++ digest) = some (size, digest) :=
      uvarintDecode_append q size hq _
    simp [Multihash.fromBytes, List.append_assoc, e1, e2, hlen]
  · intro h
    obtain ⟨m, hm⟩ := Option.isSome_iff_exists.mp h
    unfold Multihash.fromBytes at hm
    cases h1 : uvarintDecode l with
    | none => rw [h1] at hm; exact absurd hm (by simp)
    | some v =>
      obtain ⟨code, r1⟩ := v
      rw [h1] at hm
      dsimp only at hm
      cases h2 : uvarintDecode r1 with
      | none => rw [h2] at hm; exact absurd hm (by simp)
      | some w =>
        obtain ⟨size, digest⟩ := w
        rw [h2] at hm
        dsimp only at hm
        split at hm
        · obtain ⟨p, hl, hp⟩ := isUvarint_of_decode l hb code r1 h1
          have hb1 : ∀ x ∈ r1, x < 256 := by
            intro x hx
            exact hb x (hl ▸ List.mem_append_right _ hx)
          obtain ⟨q, hr1, hq⟩ := isUvarint_of_decode r1 hb1 size digest h2
          refine ⟨p, q, digest, code, size, ?_, hp, hq, by assumption⟩
          rw [hl, hr1, List.append_assoc]
        · exact absurd hm (by simp)

/-- C7: round-trip — for every valid hash byte sequence, parsing the
canonical lowercase-hex rendering of the digest constructed from it
yields that same digest: `parse(render(construct(b))) = construct(b)`. -/
theorem digest_hex_round_trip (b : List Nat) (hb : ∀ x ∈ b, x < 256)
    (d : SwapDigest) (hc : swapDigestFromBytes b = some d) :
    SwapDigest.deserializeHex (SwapDigest.serializeHex d) = some d := by
  unfold swapDigestFromBytes at hc
  cases hfb : Multihash.fromBytes b with
  | none => rw [hfb] at hc; exact absurd hc (by simp)
  | some m =>
    rw [hfb, Option.map_some', Option.some.injEq] at hc
    have hm := fromBytes_bytes b m hfb
    subst hc
    subst hm
    simp [SwapDigest.deserializeHex, SwapDigest.serializeHex,
      Multihash.as_bytes, SwapDigest.new, hexDecode_hexEncode b hb, hfb]

/-- Witness for C7: a concrete four-byte multihash (code 18, size 2)
survives the render/parse round trip. -/
theorem digest_hex_round_trip_witness :
    SwapDigest.deserializeHex (SwapDigest.serializeHex
        (SwapDigest.new { bytes := [18, 2, 170, 187] }))
      = some (SwapDigest.new { bytes := [18, 2, 170, 187] }) :=
  digest_hex_round_trip [18, 2, 170, 187] (by decide)
    (SwapDigest.new { bytes := [18, 2, 170, 187] }) rfl

/-- C8: parsing fails on every input that is not valid hex, and on every
valid hex input whose decoded bytes do not form valid hash framing. -/
theorem parse_rejects_malformed (s : List Char) :
    (hexDecode s = none → SwapDigest.deserializeHex s = none) ∧
    (∀ bytes, hexDecode s = some bytes → ¬HashFraming bytes →
      SwapDigest.deserializeHex s = none) := by
  constructor
  · intro h
    simp [SwapDigest.deserializeHex, h]
  · intro bytes h hframe
    have hlt := hexDecode_lt s bytes h
    have hnone : Multihash.fromBytes bytes = none := by
      cases hfb : Multihash.fromBytes bytes with
      | none => rfl
      | some m =>
        exact absurd ((hashFraming_iff bytes hlt).mpr (by simp [hfb])) hframe
    simp [SwapDigest.deserializeHex, h, hnone]

/-- Witness for C8: `"zz"` is rejected as non-hex, and `"00"` is valid
hex whose single zero byte has no valid hash framing. -/
theorem parse_rejects_malformed_witness :
    SwapDigest.deserializeHex ['z', 'z'] = none ∧
    SwapDigest.deserializeHex ['0', '0'] = none :=
  ⟨(parse_rejects_malformed ['z', 'z']).1 (by decide),
   (parse_rejects_malformed ['0', '0']).2 [0] (by decide)
     (fun hf => absurd ((hashFraming_iff [0] (by decide)).mp hf) (by decide))⟩

/-- C9: constructing a digest from raw hash bytes rejects every byte
sequence without valid hash framing. -/
theorem construct_rejects_bad_framing (b : List Nat) (hb : ∀ x ∈ b, x < 256)
    (hframe : ¬HashFraming b) : swapDigestFromBytes b = none := by
  have hnone : Multihash.fromBytes b = none := by
    cases hfb : Multihash.fromBytes b with
    | none => rfl
    | some m =>
      exact absurd ((hashFraming_iff b hb).mpr (by simp [hfb])) hframe
  simp [swapDigestFromBytes, hnone]

/-- Witness for C9: a lone hash-code byte with no size varint is
rejected. -/
theorem construct_rejects_bad_framing_witness :
    swapDigestFromBytes [18] = none :=
  construct_rejects_bad_framing [18] (by decide)
    (fun hf => absurd ((hashFraming_iff [18] (by decide)).mp hf) (by decide))

end Announce
